import Mathlib

/-!
Shallow embedding of the DNA-encode-decode repository core
(src/backend/app/core/dna_encoder.py, class DNAEncoder) and proofs
settling the frozen claims about it.

Modelling conventions:
* Python `bytes` values are `List Nat` with each element below 256.
* Python `str` DNA sequences are `List Char`.
* Python floats in the GC-content tolerance test are modelled by exact
  integer arithmetic: `abs(gc/n - 0.5) <= 0.1` becomes `|10*gc - 5*n| <= n`
  (multiply through by `10*n`); the two agree everywhere a double can
  represent the comparison faithfully.
* `np.random` draws are modelled by explicit oracle functions supplied as
  arguments, so theorems quantify over every possible outcome of the draws.
* Python `while`/`for` loops over a list of fixed length are modelled by
  structural recursion on a fuel argument equal to the number of loop
  iterations Python performs, so every definition reduces in the kernel.
* The external libraries (reedsolo, pycryptodome) are not part of src/; the
  definitions standing in for them carry a `Modelled from the spec:` note
  and follow the spec contract for the code paths the source exercises.
-/

namespace DNAEncoder

/-- Source line 12: `NUCLEOTIDES = ['A', 'T', 'C', 'G']`. -/
def NUCLEOTIDES : List Char := ['A', 'T', 'C', 'G']

/-- Source line 13: `MAX_HOMOPOLYMER_LENGTH = 3`. -/
def MAX_HOMOPOLYMER_LENGTH : Nat := 3

/-- One byte to 4 nucleotides, most-significant bit-pair first:
the Python loop body of `_binary_to_dna`, `bits = (byte >> (6 - i)) & 0b11`
for `i = 0, 2, 4, 6`, written with `/` and `%` in place of shift and mask. -/
def byte_to_dna (byte : Nat) : List Char :=
  [NUCLEOTIDES.getD (byte / 64 % 4) 'A',
   NUCLEOTIDES.getD (byte / 16 % 4) 'A',
   NUCLEOTIDES.getD (byte / 4 % 4) 'A',
   NUCLEOTIDES.getD (byte % 4) 'A']

/-- Source `_binary_to_dna` (lines 39-47): every byte of the input becomes
4 nucleotides, in input order. -/
def binary_to_dna (data : List Nat) : List Char :=
  data.flatMap byte_to_dna

/-- Source line 153: `NUCLEOTIDES.index(nucleotide)`.  Python raises
`ValueError` on a character outside the alphabet; every claim only feeds
this function alphabet characters, where `List.indexOf` agrees with Python. -/
def nucleotide_index (c : Char) : Nat :=
  NUCLEOTIDES.indexOf c

/-- Source `_dna_to_binary` (lines 146-162).  The Python loop shifts two
bits per nucleotide into `current_byte` and emits a byte after every 4th
nucleotide; a trailing group of fewer than 4 nucleotides never reaches
`bit_count == 8` and is dropped.  The 4-at-a-time recursion below computes
the same function. -/
def dna_to_binary : List Char → List Nat
  | a :: b :: c :: d :: rest =>
      (((nucleotide_index a * 4 + nucleotide_index b) * 4 + nucleotide_index c) * 4
          + nucleotide_index d) :: dna_to_binary rest
  | _ => []

/-- Source line 51: `sequence.count('G') + sequence.count('C')`. -/
def gc_count (l : List Char) : Nat :=
  l.count 'G' + l.count 'C'

/-- Source line 53: `abs(gc_content - TARGET_GC_CONTENT) <= GC_CONTENT_TOLERANCE`
with `gc_content = gc_count / len`, target `0.5`, tolerance `0.1`, in exact
integer arithmetic: `|10*gc - 5*n| <= n`, i.e. `4*n <= 10*gc` and `10*gc <= 6*n`. -/
def gc_in_tolerance (l : List Char) : Bool :=
  decide (4 * l.length ≤ 10 * gc_count l) && decide (10 * gc_count l ≤ 6 * l.length)

/-- Source `_optimize_gc_content`, low branch (lines 58-65): Python iterates
`i` over `range(len(sequence_list))` with the list length fixed; `fuel`
counts the indices not yet visited, so the initial call has
`fuel = l.length` and `i = 0`.  Each `A`/`T` at the scan position becomes
`G` (oracle true, `np.random.random() < 0.5`) or `C`; the loop breaks as
soon as the whole-list GC content re-enters tolerance.  The returned flag
records whether the loop left via `break` (tolerance reached) rather than
by exhausting the scan. -/
def gc_replace_low (oracle : Nat → Bool) : Nat → List Char → Nat → List Char × Bool
  | 0, l, _ => (l, false)
  | fuel + 1, l, i =>
      if l.getD i ' ' = 'A' ∨ l.getD i ' ' = 'T' then
        let l2 := l.set i (if oracle i then 'G' else 'C')
        if gc_in_tolerance l2 then (l2, true)
        else gc_replace_low oracle fuel l2 (i + 1)
      else gc_replace_low oracle fuel l (i + 1)

/-- Source `_optimize_gc_content`, high branch (lines 66-73): each `G`/`C`
at the scan position becomes `A` (oracle true) or `T`; otherwise as the low
branch. -/
def gc_replace_high (oracle : Nat → Bool) : Nat → List Char → Nat → List Char × Bool
  | 0, l, _ => (l, false)
  | fuel + 1, l, i =>
      if l.getD i ' ' = 'G' ∨ l.getD i ' ' = 'C' then
        let l2 := l.set i (if oracle i then 'A' else 'T')
        if gc_in_tolerance l2 then (l2, true)
        else gc_replace_high oracle fuel l2 (i + 1)
      else gc_replace_high oracle fuel l (i + 1)

/-- Source `_optimize_gc_content` (lines 49-75), together with the flag
saying whether the final composition is known to be inside tolerance
(`true`: returned unchanged or loop broke; `false`: scan exhausted).
Line 58 `gc_content < TARGET_GC_CONTENT` is `gc/n < 1/2`, i.e. `2*gc < n`. -/
def optimize_gc_content_full (oracle : Nat → Bool) (l : List Char) : List Char × Bool :=
  if gc_in_tolerance l then (l, true)
  else if 2 * gc_count l < l.length then gc_replace_low oracle l.length l 0
  else gc_replace_high oracle l.length l 0

/-- Source `_optimize_gc_content` return value (line 75). -/
def optimize_gc_content (oracle : Nat → Bool) (l : List Char) : List Char :=
  (optimize_gc_content_full oracle l).1

/-- The 4-position window of `_avoid_homopolymers` starting at `j` consists
of identical symbols (`len(set(window)) == 1` for `window = result[j:j+4]`,
phrased as the last three positions equalling the first). -/
def win_eq (l : List Char) (j : Nat) : Prop :=
  l.getD j ' ' = l.getD (j + 1) ' ' ∧ l.getD j ' ' = l.getD (j + 2) ' '
    ∧ l.getD j ' ' = l.getD (j + 3) ' '

instance (l : List Char) (j : Nat) : Decidable (win_eq l j) := by
  unfold win_eq
  infer_instance

/-- Source `_avoid_homopolymers` loop (lines 80-86): `while i < len(result) - 3`
with the list length fixed by the loop body (`set` preserves length), so the
loop performs exactly `l.length - 3` iterations; `fuel` counts the remaining
ones.  When all 4 window symbols are identical, the last window position is
replaced by the oracle's choice among the 3 other nucleotides
(`np.random.choice(alternatives)`). -/
def avoid_homopolymers_loop (oracle : Nat → Nat) : Nat → List Char → Nat → List Char
  | 0, l, _ => l
  | fuel + 1, l, i =>
      if win_eq l i then
        avoid_homopolymers_loop oracle fuel
          (l.set (i + 3)
            ((NUCLEOTIDES.filter (fun n => n ≠ l.getD i ' ')).getD (oracle i % 3) 'A'))
          (i + 1)
      else avoid_homopolymers_loop oracle fuel l (i + 1)

/-- Source `_avoid_homopolymers` (lines 77-87). -/
def avoid_homopolymers (oracle : Nat → Nat) (l : List Char) : List Char :=
  avoid_homopolymers_loop oracle (l.length - MAX_HOMOPOLYMER_LENGTH) l 0

/-- No run of 4 or more identical adjacent symbols: no 4-position window is
constant. -/
def NoRun4 (l : List Char) : Prop :=
  ∀ j < l.length, j + 3 < l.length → ¬ win_eq l j

instance (l : List Char) : Decidable (NoRun4 l) := by
  unfold NoRun4
  infer_instance

/-- Big-endian byte concatenation, Python `int.from_bytes(bytes, 'big')`. -/
def bytes_to_nat (l : List Nat) : Nat :=
  l.foldl (fun a b => a * 256 + b) 0

/-- Randomness consumed by one `encode` call: the 16-byte salt and GCM nonce
(`get_random_bytes(16)` and `cipher.nonce`), and per chunk index the GC-pass
coin flips and the homopolymer-pass replacement choices. -/
structure Rng where
  salt : List Nat
  nonce : List Nat
  gc : Nat → Nat → Bool
  hom : Nat → Nat → Nat

/-- Modelled from the spec: `PBKDF2(password, salt, dkLen=32, count=100000)`
from pycryptodome (section 4.5) is an external key-derivation function; the
model only needs a concrete key that depends on password and salt. -/
def kdf (password salt : List Nat) : Nat :=
  (password ++ salt).foldl (fun a b => (a * 131 + b + 1) % 65536) 7

/-- Modelled from the spec: AES-GCM (section 4.5) is an authenticated stream
cipher; encryption and decryption XOR the data with a keystream determined
by key and nonce.  Crucially for claim C2, pycryptodome's bare
`cipher.decrypt` performs no tag verification and raises no exception,
matching source line 94-95 (the tag returned by `encrypt_and_digest` is
discarded) and lines 207-210 (decrypt without `verify`, so the
`except` branch is dead code); hence decryption here is total. -/
def gcm_xor (key : Nat) (nonce : List Nat) (data : List Nat) : List Nat :=
  data.mapIdx (fun i b => b ^^^ ((key + bytes_to_nat nonce + i) % 256))

/-- Source `_encrypt_data` (lines 89-95): returns
`(ciphertext, cipher.nonce, salt)` — the authentication `tag` from
`encrypt_and_digest` is computed and then discarded. -/
def encrypt_data (rng : Rng) (data : List Nat) (password : List Nat) :
    List Nat × List Nat × List Nat :=
  (gcm_xor (kdf password rng.salt) rng.nonce data, rng.nonce, rng.salt)

/-- Error-correction level (constructor argument, lines 29-34). -/
inductive EccLevel
  | none
  | basic
  | robust
deriving DecidableEq

/-- Source lines 29-34: parity-byte count per level. -/
def ecc_symbols : EccLevel → Nat
  | EccLevel.none => 0
  | EccLevel.basic => 8
  | EccLevel.robust => 16

/-- Modelled from the spec: reedsolo `RSCodec(nsym).encode` (section 4.2)
appends `nsym` bytes of systematic redundancy computed from the chunk. -/
def rs_parity (nsym : Nat) (data : List Nat) : List Nat :=
  (List.range nsym).map (fun i => (data.sum + 3 * i + 1) % 256)

/-- Modelled from the spec: the systematic codeword is the chunk followed by
its parity bytes. -/
def rs_encode (nsym : Nat) (data : List Nat) : List Nat :=
  data ++ rs_parity nsym data

/-- Modelled from the spec: `rs_codec.decode(chunk)[0]` on an uncorrupted
codeword returns the message part.  No frozen claim exercises the
uncorrectable-block failure path, so the model is the error-free path. -/
def rs_decode (nsym : Nat) (msg : List Nat) : List Nat :=
  msg.take (msg.length - nsym)

/-- Source `_add_fragment_id` (lines 97-101).  `format(fragment_id, '016b')`
zero-pads to at least 16 binary digits without truncating, `int(id_binary, 2)`
recovers `fragment_id` exactly, and `.to_bytes(2, byteorder='big')` raises
`OverflowError` when `fragment_id >= 2**16`; below that it yields the two
bytes `[id / 256, id % 256]`, which `_binary_to_dna` turns into the 8-symbol
header prepended to the sequence. -/
def add_fragment_id (sequence : List Char) (fragment_id : Nat) : Option (List Char) :=
  if fragment_id < 65536 then
    some (binary_to_dna [fragment_id / 256, fragment_id % 256] ++ sequence)
  else
    Option.none

/-- The 8-symbol header for ordinal `k < 65536`. -/
def fragment_header (k : Nat) : List Char :=
  binary_to_dna [k / 256, k % 256]

/-- Source line 125-126: `data[i:i + bytes_per_sequence]` for
`i in range(0, len(data), bytes_per_sequence)` with a positive step
`sizem1 + 1`.  The fuel starts at `data.length`, an upper bound on the
number of chunks, so the middle arm is never reached from `chunk_list`. -/
def chunk_loop (sizem1 : Nat) : Nat → List Nat → List (List Nat)
  | _, [] => []
  | 0, a :: t => [(a :: t).take (sizem1 + 1)]
  | fuel + 1, a :: t =>
      ((a :: t).take (sizem1 + 1)) :: chunk_loop sizem1 fuel ((a :: t).drop (sizem1 + 1))

/-- Chunking with positive step `sizem1 + 1`. -/
def chunk_list (sizem1 : Nat) (data : List Nat) : List (List Nat) :=
  chunk_loop sizem1 data.length data

/-- Source lines 128-133: the chunk is packed to nucleotides, and when error
correction is enabled the packed string is recomputed from the
Reed-Solomon-encoded chunk (the first computation is discarded). -/
def packed_block (level : EccLevel) (chunk : List Nat) : List Char :=
  if 0 < ecc_symbols level then binary_to_dna (rs_encode (ecc_symbols level) chunk)
  else binary_to_dna chunk

/-- The exceptions `encode` can raise: `ValueError` from
`range(0, len(data), 0)` when the chunk step is zero, and `OverflowError`
from `_add_fragment_id` when a fragment ordinal reaches `2**16`. -/
inductive EncodeError
  | rangeStepZero
  | fragmentOverflow
deriving DecidableEq

/-- Source lines 124-142, the per-chunk body of `encode`: pack (with ECC),
rewrite GC content then homopolymers, prepend the fragment header with
ordinal `k = len(sequences)`, the running chunk index. -/
def encode_chunks (rng : Rng) (level : EccLevel) :
    List (List Nat) → Nat → Except EncodeError (List (List Char))
  | [], _ => Except.ok []
  | chunk :: rest, k =>
      let dna1 := packed_block level chunk
      let dna2 := optimize_gc_content (rng.gc k) dna1
      let dna3 := avoid_homopolymers (rng.hom k) dna2
      match add_fragment_id dna3 k with
      | some s => (encode_chunks rng level rest (k + 1)).map (fun tail => s :: tail)
      | Option.none => Except.error EncodeError.fragmentOverflow

/-- Source lines 114-117: when a password is supplied (Python truthiness:
`None` and the empty string are both falsy), the payload is replaced by
`salt + nonce + ciphertext`. -/
def enveloped (rng : Rng) (data : List Nat) (password : Option (List Nat)) : List Nat :=
  match password with
  | some pw =>
      if pw = [] then data
      else
        let e := encrypt_data rng data pw
        e.2.2 ++ e.2.1 ++ e.1
  | Option.none => data

/-- Source lines 120-121: `usable_length = base_length - 8` (a Python int,
possibly negative) and `bytes_per_sequence = usable_length * 2 // 8`
(floor division). -/
def bytes_per_sequence (base_length : Nat) : Int :=
  Int.fdiv (((base_length : Int) - 8) * 2) 8

/-- Source `encode` (lines 103-144).  `range(0, len(data), step)` raises
`ValueError` for step 0 and is empty for a negative step, so the chunk loop
runs only when `bytes_per_sequence` is positive. -/
def encode (rng : Rng) (base_length : Nat) (level : EccLevel)
    (data : List Nat) (password : Option (List Nat)) :
    Except EncodeError (List (List Char)) :=
  let d := enveloped rng data password
  let bps := bytes_per_sequence base_length
  if bps = 0 then Except.error EncodeError.rangeStepZero
  else if bps < 0 then Except.ok []
  else encode_chunks rng level (chunk_list (bps.toNat - 1) d) 0

/-- Source lines 176-179: unpack the first 8 symbols and read them as a
big-endian integer. -/
def extract_fragment_id (seq : List Char) : Nat :=
  bytes_to_nat (dna_to_binary (seq.take 8))

/-- Source lines 185-196: strip the 8-symbol header, unpack, and apply
Reed-Solomon decoding when error correction is enabled. -/
def decode_chunk (level : EccLevel) (seq : List Char) : List Nat :=
  let chunk := dna_to_binary (seq.drop 8)
  if 0 < ecc_symbols level then rs_decode (ecc_symbols level) chunk else chunk

/-- Source `decode` (lines 164-212).  Python `sorted` with a key function is
a stable sort; `List.insertionSort` on the same comparison is also stable,
and two stable sorts agree on every input.  The final branch mirrors lines
198-210: split `salt | nonce | ciphertext` at offsets 16 and 32 and decrypt;
as recorded at `gcm_xor`, the bare GCM decrypt never raises, so the
`except` clause of the source is unreachable and decode is total. -/
def decode (level : EccLevel) (sequences : List (List Char))
    (password : Option (List Nat)) : List Nat :=
  let sorted := sequences.insertionSort
    (fun a b => extract_fragment_id a ≤ extract_fragment_id b)
  let data := (sorted.map (decode_chunk level)).flatten
  match password with
  | some pw =>
      if pw = [] then data
      else gcm_xor (kdf pw (data.take 16)) ((data.drop 16).take 16) (data.drop 32)
  | Option.none => data

/-- The packed, parity-included symbol blocks of an unencrypted payload
before any constraint rewriting: the input handed by `encode` to the
sequence constraint rewriter for each chunk. -/
def packed_blocks (base_length : Nat) (level : EccLevel) (data : List Nat) :
    List (List Char) :=
  let bps := bytes_per_sequence base_length
  if 0 < bps then (chunk_list (bps.toNat - 1) data).map (packed_block level)
  else []

/-- The fragments `encode` produces when the constraint rewriter makes no
substitution: header with ordinal `k + position` followed by the packed
block. -/
def plain_fragments (level : EccLevel) : Nat → List (List Nat) → List (List Char)
  | _, [] => []
  | k, c :: rest =>
      (fragment_header k ++ packed_block level c) :: plain_fragments level (k + 1) rest

/-- A concrete randomness assignment used by witnesses: all-zero salt,
all-one nonce, GC coin always `G`, homopolymer choice always the first
alternative. -/
def rng0 : Rng :=
  ⟨List.replicate 16 0, List.replicate 16 1, fun _ _ => true, fun _ _ => 0⟩

/-- Number of sequences in a successful encode result. -/
def sequences_count (e : Except EncodeError (List (List Char))) : Option Nat :=
  e.toOption.map List.length

/-- Lengths of the sequences in a successful encode result. -/
def encode_lengths (e : Except EncodeError (List (List Char))) : Option (List Nat) :=
  e.toOption.map (List.map List.length)

/-- The chunk byte strings a given encode call processes. -/
def encode_chunk_inputs (rng : Rng) (base_length : Nat) (data : List Nat)
    (password : Option (List Nat)) : List (List Nat) :=
  let bps := bytes_per_sequence base_length
  if 0 < bps then chunk_list (bps.toNat - 1) (enveloped rng data password) else []

/-! Lemmas about the symbol packer. -/

lemma nucleotide_index_getD : ∀ k, k < 4 → nucleotide_index (NUCLEOTIDES.getD k 'A') = k := by
  decide

lemma binary_to_dna_cons (b : Nat) (l : List Nat) :
    binary_to_dna (b :: l) = byte_to_dna b ++ binary_to_dna l := by
  simp [binary_to_dna]

lemma byte_to_dna_length (b : Nat) : (byte_to_dna b).length = 4 := rfl

lemma binary_to_dna_length (data : List Nat) :
    (binary_to_dna data).length = 4 * data.length := by
  induction data with
  | nil => rfl
  | cons b l ih =>
      rw [binary_to_dna_cons, List.length_append, byte_to_dna_length, ih,
        List.length_cons]
      ring

lemma dna_to_binary_byte (b : Nat) (hb : b < 256) (rest : List Char) :
    dna_to_binary (byte_to_dna b ++ rest) = b :: dna_to_binary rest := by
  show dna_to_binary
      (NUCLEOTIDES.getD (b / 64 % 4) 'A' :: NUCLEOTIDES.getD (b / 16 % 4) 'A' ::
        NUCLEOTIDES.getD (b / 4 % 4) 'A' :: NUCLEOTIDES.getD (b % 4) 'A' :: rest)
      = b :: dna_to_binary rest
  rw [dna_to_binary]
  rw [nucleotide_index_getD _ (Nat.mod_lt _ (by norm_num)),
    nucleotide_index_getD _ (Nat.mod_lt _ (by norm_num)),
    nucleotide_index_getD _ (Nat.mod_lt _ (by norm_num)),
    nucleotide_index_getD _ (Nat.mod_lt _ (by norm_num))]
  congr 1
  omega

lemma dna_to_binary_binary_to_dna (data : List Nat) (h : ∀ b ∈ data, b < 256) :
    dna_to_binary (binary_to_dna data) = data := by
  induction data with
  | nil => rfl
  | cons b l ih =>
      rw [binary_to_dna_cons, dna_to_binary_byte b (h b (List.mem_cons_self b l)),
        ih (fun x hx => h x (List.mem_cons_of_mem b hx))]

lemma dna_to_binary_truncates (s : List Char) :
    dna_to_binary s = dna_to_binary (s.take (4 * (s.length / 4))) := by
  suffices H : ∀ n (s : List Char), s.length ≤ n →
      dna_to_binary s = dna_to_binary (s.take (4 * (s.length / 4))) from
    H s.length s le_rfl
  intro n
  induction n with
  | zero =>
      intro s hs
      match s, hs with
      | [], _ => rfl
  | succ n ih =>
      intro s hs
      match s with
      | [] => rfl
      | [a] =>
          norm_num
          rfl
      | [a, b] =>
          norm_num
          rfl
      | [a, b, c] =>
          norm_num
          rfl
      | a :: b :: c :: d :: rest =>
          have hlen : (a :: b :: c :: d :: rest).length = rest.length + 4 := by
            simp
          have hrest : rest.length ≤ n := by
            rw [hlen] at hs
            omega
          rw [hlen]
          have hdiv : 4 * ((rest.length + 4) / 4) = 4 * (rest.length / 4) + 4 := by
            omega
          rw [hdiv]
          show dna_to_binary (a :: b :: c :: d :: rest)
              = dna_to_binary (a :: b :: c :: d :: rest.take (4 * (rest.length / 4)))
          rw [dna_to_binary, dna_to_binary, ← ih rest hrest]

/-! Lemmas about the GC-content pass. -/

lemma gc_replace_low_length (oracle : Nat → Bool) :
    ∀ fuel l i, ((gc_replace_low oracle fuel l i).1).length = l.length := by
  intro fuel
  induction fuel with
  | zero => intro l i; rfl
  | succ n ih =>
      intro l i
      rw [gc_replace_low]
      dsimp only
      split_ifs
      all_goals simp [ih]

lemma gc_replace_high_length (oracle : Nat → Bool) :
    ∀ fuel l i, ((gc_replace_high oracle fuel l i).1).length = l.length := by
  intro fuel
  induction fuel with
  | zero => intro l i; rfl
  | succ n ih =>
      intro l i
      rw [gc_replace_high]
      dsimp only
      split_ifs
      all_goals simp [ih]

lemma gc_replace_low_snd_true (oracle : Nat → Bool) :
    ∀ fuel l i, (gc_replace_low oracle fuel l i).2 = true →
      gc_in_tolerance (gc_replace_low oracle fuel l i).1 = true := by
  intro fuel
  induction fuel with
  | zero =>
      intro l i h
      exact absurd h (by simp [gc_replace_low])
  | succ n ih =>
      intro l i h
      rw [gc_replace_low] at h ⊢
      dsimp only at h ⊢
      split_ifs at h ⊢
      all_goals first
        | assumption
        | exact ih _ _ h

lemma gc_replace_high_snd_true (oracle : Nat → Bool) :
    ∀ fuel l i, (gc_replace_high oracle fuel l i).2 = true →
      gc_in_tolerance (gc_replace_high oracle fuel l i).1 = true := by
  intro fuel
  induction fuel with
  | zero =>
      intro l i h
      exact absurd h (by simp [gc_replace_high])
  | succ n ih =>
      intro l i h
      rw [gc_replace_high] at h ⊢
      dsimp only at h ⊢
      split_ifs at h ⊢
      all_goals first
        | assumption
        | exact ih _ _ h

lemma optimize_gc_content_id (oracle : Nat → Bool) (l : List Char)
    (h : gc_in_tolerance l = true) : optimize_gc_content oracle l = l := by
  unfold optimize_gc_content optimize_gc_content_full
  rw [if_pos h]

lemma optimize_gc_content_length (oracle : Nat → Bool) (l : List Char) :
    (optimize_gc_content oracle l).length = l.length := by
  unfold optimize_gc_content optimize_gc_content_full
  split
  · rfl
  · split
    · exact gc_replace_low_length oracle l.length l 0
    · exact gc_replace_high_length oracle l.length l 0

lemma optimize_gc_content_full_true (oracle : Nat → Bool) (l : List Char)
    (h : (optimize_gc_content_full oracle l).2 = true) :
    gc_in_tolerance (optimize_gc_content oracle l) = true := by
  unfold optimize_gc_content
  unfold optimize_gc_content_full at h ⊢
  split at h
  · rw [if_pos (by assumption)]
    assumption
  · split at h
    · rw [if_neg (by assumption), if_pos (by assumption)]
      exact gc_replace_low_snd_true oracle l.length l 0 h
    · rw [if_neg (by assumption), if_neg (by assumption)]
      exact gc_replace_high_snd_true oracle l.length l 0 h

/-! Lemmas about the homopolymer pass. -/

lemma getD_set_ne (l : List Char) (m j : Nat) (c : Char) (h : m ≠ j) :
    (l.set m c).getD j ' ' = l.getD j ' ' := by
  simp [List.getD, List.getElem?_set_ne h]

lemma getD_set_self (l : List Char) (m : Nat) (c : Char) (h : m < l.length) :
    (l.set m c).getD m ' ' = c := by
  simp [List.getD, List.getElem?_set_self, h]

lemma alternatives_length (c : Char) :
    3 ≤ (NUCLEOTIDES.filter (fun n => n ≠ c)).length := by
  by_cases hA : c = 'A'
  · subst hA
    decide
  · by_cases hT : c = 'T'
    · subst hT
      decide
    · by_cases hC : c = 'C'
      · subst hC
        decide
      · by_cases hG : c = 'G'
        · subst hG
          decide
        · have hfil : NUCLEOTIDES.filter (fun n => n ≠ c) = NUCLEOTIDES := by
            simp only [NUCLEOTIDES, List.filter]
            simp [Ne, eq_comm, hA, hT, hC, hG]
          rw [hfil]
          decide

lemma alternatives_ne (c : Char) (k : Nat) :
    (NUCLEOTIDES.filter (fun n => n ≠ c)).getD (k % 3) 'A' ≠ c := by
  have hk : k % 3 < (NUCLEOTIDES.filter (fun n => n ≠ c)).length :=
    lt_of_lt_of_le (Nat.mod_lt _ (by norm_num)) (alternatives_length c)
  rw [List.getD_eq_getElem _ _ hk]
  have hmem := List.getElem_mem hk
  have := (List.mem_filter.mp hmem).2
  simpa using this

lemma avoid_loop_length (oracle : Nat → Nat) :
    ∀ fuel l i, (avoid_homopolymers_loop oracle fuel l i).length = l.length := by
  intro fuel
  induction fuel with
  | zero => intro l i; rfl
  | succ n ih =>
      intro l i
      rw [avoid_homopolymers_loop]
      split
      · rw [ih]
        simp
      · exact ih l (i + 1)

lemma win_eq_set_high (l : List Char) (i : Nat) (c : Char) (j : Nat) (hj : j < i) :
    win_eq (l.set (i + 3) c) j ↔ win_eq l j := by
  unfold win_eq
  rw [getD_set_ne _ _ _ _ (by omega), getD_set_ne _ _ _ _ (by omega),
    getD_set_ne _ _ _ _ (by omega), getD_set_ne _ _ _ _ (by omega)]

lemma avoid_loop_no_run (oracle : Nat → Nat) :
    ∀ fuel l i, fuel + i = l.length - 3 →
      (∀ j, j < i → ¬ win_eq l j) →
      NoRun4 (avoid_homopolymers_loop oracle fuel l i) := by
  intro fuel
  induction fuel with
  | zero =>
      intro l i hinv hpre
      rw [avoid_homopolymers_loop]
      intro j _ hj2
      exact hpre j (by omega)
  | succ n ih =>
      intro l i hinv hpre
      have hi3 : i + 3 < l.length := by omega
      rw [avoid_homopolymers_loop]
      split
      · rename_i hw
        apply ih
        · simp
          omega
        · intro j hj
          rcases Nat.lt_succ_iff_lt_or_eq.mp hj with hj2 | hj2
          · rw [win_eq_set_high l i _ j hj2]
            exact hpre j hj2
          · subst hj2
            intro hcon
            have h3 := hcon.2.2
            rw [getD_set_ne _ _ _ _ (by omega), getD_set_self _ _ _ hi3] at h3
            exact alternatives_ne (l.getD j ' ') (oracle j) h3.symm
      · rename_i hw
        apply ih
        · omega
        · intro j hj
          rcases Nat.lt_succ_iff_lt_or_eq.mp hj with hj2 | hj2
          · exact hpre j hj2
          · subst hj2
            exact hw

lemma avoid_homopolymers_no_run (oracle : Nat → Nat) (l : List Char) :
    NoRun4 (avoid_homopolymers oracle l) := by
  unfold avoid_homopolymers MAX_HOMOPOLYMER_LENGTH
  exact avoid_loop_no_run oracle (l.length - 3) l 0 (by omega)
    (fun j hj => absurd hj (Nat.not_lt_zero j))

lemma avoid_loop_id (oracle : Nat → Nat) :
    ∀ fuel l i, fuel + i = l.length - 3 →
      (∀ j, j + 3 < l.length → ¬ win_eq l j) →
      avoid_homopolymers_loop oracle fuel l i = l := by
  intro fuel
  induction fuel with
  | zero =>
      intro l i _ _
      rw [avoid_homopolymers_loop]
  | succ n ih =>
      intro l i hinv hno
      have hi3 : i + 3 < l.length := by omega
      rw [avoid_homopolymers_loop, if_neg (hno i hi3)]
      exact ih l (i + 1) (by omega) hno

lemma avoid_homopolymers_id (oracle : Nat → Nat) (l : List Char) (h : NoRun4 l) :
    avoid_homopolymers oracle l = l := by
  unfold avoid_homopolymers MAX_HOMOPOLYMER_LENGTH
  exact avoid_loop_id oracle (l.length - 3) l 0 (by omega)
    (fun j hj => h j (by omega) hj)

lemma avoid_homopolymers_length (oracle : Nat → Nat) (l : List Char) :
    (avoid_homopolymers oracle l).length = l.length :=
  avoid_loop_length oracle _ l 0

/-! Lemmas about chunking, error-correction framing and fragment framing. -/

lemma chunk_loop_flatten (s : Nat) :
    ∀ fuel data, data.length ≤ fuel → (chunk_loop s fuel data).flatten = data := by
  intro fuel
  induction fuel with
  | zero =>
      intro data h
      match data, h with
      | [], _ => rfl
  | succ n ih =>
      intro data h
      match data with
      | [] => rfl
      | a :: t =>
          rw [chunk_loop, List.flatten_cons, ih _ (by simp at h ⊢; omega)]
          exact List.take_append_drop _ _

lemma chunk_loop_mem (s : Nat) :
    ∀ fuel data c, c ∈ chunk_loop s fuel data → ∀ b ∈ c, b ∈ data := by
  intro fuel
  induction fuel with
  | zero =>
      intro data c hc b hb
      match data, hc with
      | a :: t, hc =>
          rw [chunk_loop] at hc
          rw [List.mem_singleton.mp hc] at hb
          exact List.mem_of_mem_take hb
  | succ n ih =>
      intro data c hc b hb
      match data, hc with
      | a :: t, hc =>
          rw [chunk_loop] at hc
          rcases List.mem_cons.mp hc with h | h
          · rw [h] at hb
            exact List.mem_of_mem_take hb
          · exact List.mem_of_mem_drop (ih _ c h b hb)

lemma chunk_list_flatten (s : Nat) (data : List Nat) :
    (chunk_list s data).flatten = data :=
  chunk_loop_flatten s data.length data le_rfl

lemma chunk_list_mem (s : Nat) (data : List Nat) (c : List Nat)
    (hc : c ∈ chunk_list s data) : ∀ b ∈ c, b ∈ data :=
  chunk_loop_mem s data.length data c hc

lemma rs_parity_length (nsym : Nat) (data : List Nat) :
    (rs_parity nsym data).length = nsym := by
  simp [rs_parity]

lemma rs_encode_wf (nsym : Nat) (data : List Nat) (h : ∀ b ∈ data, b < 256) :
    ∀ b ∈ rs_encode nsym data, b < 256 := by
  intro b hb
  rcases List.mem_append.mp hb with h1 | h1
  · exact h b h1
  · unfold rs_parity at h1
    simp at h1
    obtain ⟨i, _, hi⟩ := h1
    omega

lemma rs_decode_encode (nsym : Nat) (data : List Nat) :
    rs_decode nsym (rs_encode nsym data) = data := by
  unfold rs_decode rs_encode
  rw [List.length_append, rs_parity_length]
  have h : data.length + nsym - nsym = data.length := by omega
  rw [h]
  exact List.take_left data _

lemma fragment_header_length (k : Nat) : (fragment_header k).length = 8 := by
  unfold fragment_header
  rw [binary_to_dna_length]
  norm_num

lemma extract_fragment_id_header (k : Nat) (hk : k < 65536) (x : List Char) :
    extract_fragment_id (fragment_header k ++ x) = k := by
  unfold extract_fragment_id
  have h8 : (fragment_header k ++ x).take 8 = fragment_header k := by
    have h := List.take_left (fragment_header k) x
    rwa [fragment_header_length] at h
  rw [h8]
  unfold fragment_header
  have hwf : ∀ b ∈ [k / 256, k % 256], b < 256 := by
    intro b hb
    simp at hb
    rcases hb with hb | hb <;> subst hb <;> omega
  rw [dna_to_binary_binary_to_dna _ hwf]
  unfold bytes_to_nat
  simp [List.foldl]
  omega

lemma add_fragment_id_some (dna : List Char) (k : Nat) (hk : k < 65536) :
    add_fragment_id dna k = some (fragment_header k ++ dna) := by
  unfold add_fragment_id fragment_header
  rw [if_pos hk]

lemma add_fragment_id_none (dna : List Char) (k : Nat) (hk : 65536 ≤ k) :
    add_fragment_id dna k = Option.none := by
  unfold add_fragment_id
  rw [if_neg (by omega)]

lemma drop8_header (k : Nat) (x : List Char) :
    (fragment_header k ++ x).drop 8 = x := by
  have h := List.drop_left (fragment_header k) x
  rwa [fragment_header_length] at h

/-! Lemmas about the chunk-size computation and the `encode` entry point. -/

lemma bytes_per_sequence_nat (L : Nat) (h : 8 ≤ L) :
    bytes_per_sequence L = (((L - 8) * 2 / 8 : Nat) : Int) := by
  unfold bytes_per_sequence
  have h8 : ((L : Int) - 8) = ((L - 8 : Nat) : Int) := by omega
  rw [h8]
  have h2 : ((L - 8 : Nat) : Int) * 2 = (((L - 8) * 2 : Nat) : Int) := by
    push_cast
    ring
  rw [h2, Int.fdiv_eq_ediv]
  · exact Int.ofNat_ediv _ _
  · positivity

lemma bytes_per_sequence_pos (L : Nat) (h : 12 ≤ L) : 0 < bytes_per_sequence L := by
  rw [bytes_per_sequence_nat L (by omega)]
  have h1 : 0 < (L - 8) * 2 / 8 := by omega
  exact_mod_cast h1

lemma bytes_per_sequence_zero (L : Nat) (h1 : 8 ≤ L) (h2 : L ≤ 11) :
    bytes_per_sequence L = 0 := by
  interval_cases L <;> decide

lemma bytes_per_sequence_neg (L : Nat) (h : L ≤ 7) : bytes_per_sequence L < 0 := by
  interval_cases L <;> decide

lemma encode_eq_chunks (rng : Rng) (L : Nat) (level : EccLevel) (data : List Nat)
    (pw : Option (List Nat)) (h : 0 < bytes_per_sequence L) :
    encode rng L level data pw
      = encode_chunks rng level
          (chunk_list ((bytes_per_sequence L).toNat - 1) (enveloped rng data pw)) 0 := by
  unfold encode
  dsimp only
  rw [if_neg (by omega), if_neg (by omega)]

lemma encode_eq_error (rng : Rng) (L : Nat) (level : EccLevel) (data : List Nat)
    (pw : Option (List Nat)) (h : bytes_per_sequence L = 0) :
    encode rng L level data pw = Except.error EncodeError.rangeStepZero := by
  unfold encode
  dsimp only
  rw [if_pos h]

lemma encode_eq_empty (rng : Rng) (L : Nat) (level : EccLevel) (data : List Nat)
    (pw : Option (List Nat)) (h : bytes_per_sequence L < 0) :
    encode rng L level data pw = Except.ok [] := by
  unfold encode
  dsimp only
  rw [if_neg (by omega), if_pos h]

/-! Structural lemmas about the per-chunk encode loop and its decode inverse. -/

lemma encode_chunks_plain (rng : Rng) (level : EccLevel) :
    ∀ chunks k seqs,
      (∀ c ∈ chunks, gc_in_tolerance (packed_block level c) = true
        ∧ NoRun4 (packed_block level c)) →
      encode_chunks rng level chunks k = Except.ok seqs →
      seqs = plain_fragments level k chunks ∧ ∀ j < chunks.length, k + j < 65536 := by
  intro chunks
  induction chunks with
  | nil =>
      intro k seqs _ h
      rw [encode_chunks] at h
      cases h
      exact ⟨rfl, by intro j hj; simp at hj⟩
  | cons c rest ih =>
      intro k seqs hcon henc
      rw [encode_chunks] at henc
      rw [optimize_gc_content_id _ _ (hcon c (List.mem_cons_self c rest)).1,
        avoid_homopolymers_id _ _ (hcon c (List.mem_cons_self c rest)).2] at henc
      by_cases hk : k < 65536
      · rw [add_fragment_id_some _ _ hk] at henc
        cases hrest : encode_chunks rng level rest (k + 1) with
        | error e =>
            rw [hrest] at henc
            exact absurd henc (by simp [Except.map])
        | ok tail =>
            rw [hrest] at henc
            simp only [Except.map, Except.ok.injEq] at henc
            obtain ⟨h1, h2⟩ := ih (k + 1) tail
              (fun x hx => hcon x (List.mem_cons_of_mem c hx)) hrest
            constructor
            · rw [← henc, plain_fragments, h1]
            · intro j hj
              rcases Nat.eq_zero_or_pos j with h0 | hpos
              · subst h0
                omega
              · have hx := h2 (j - 1) (by simp at hj; omega)
                omega
      · rw [add_fragment_id_none _ _ (by omega)] at henc
        exact absurd henc (by simp)

lemma plain_fragments_id_ge (level : EccLevel) :
    ∀ chunks k, (∀ j < chunks.length, k + j < 65536) →
      ∀ s ∈ plain_fragments level k chunks, k ≤ extract_fragment_id s := by
  intro chunks
  induction chunks with
  | nil =>
      intro k _ s hs
      exact absurd hs (by rw [plain_fragments]; simp)
  | cons c rest ih =>
      intro k hb s hs
      rw [plain_fragments] at hs
      rcases List.mem_cons.mp hs with h | h
      · subst h
        rw [extract_fragment_id_header k (by have := hb 0 (by simp); omega)]
      · have hb2 : ∀ j < rest.length, (k + 1) + j < 65536 := by
          intro j hj
          have := hb (j + 1) (by simp; omega)
          omega
        have := ih (k + 1) hb2 s h
        omega

lemma plain_fragments_sorted (level : EccLevel) :
    ∀ chunks k, (∀ j < chunks.length, k + j < 65536) →
      List.Sorted (fun a b => extract_fragment_id a ≤ extract_fragment_id b)
        (plain_fragments level k chunks) := by
  intro chunks
  induction chunks with
  | nil =>
      intro k _
      rw [plain_fragments]
      exact List.sorted_nil
  | cons c rest ih =>
      intro k hb
      have hb2 : ∀ j < rest.length, (k + 1) + j < 65536 := by
        intro j hj
        have := hb (j + 1) (by simp; omega)
        omega
      rw [plain_fragments, List.sorted_cons]
      constructor
      · intro b hbmem
        rw [extract_fragment_id_header k (by have := hb 0 (by simp); omega)]
        have := plain_fragments_id_ge level rest (k + 1) hb2 b hbmem
        omega
      · exact ih (k + 1) hb2

lemma plain_fragments_decode (level : EccLevel) :
    ∀ chunks k, (∀ j < chunks.length, k + j < 65536) →
      (∀ c ∈ chunks, ∀ b ∈ c, b < 256) →
      (plain_fragments level k chunks).map (decode_chunk level) = chunks := by
  intro chunks
  induction chunks with
  | nil =>
      intro k _ _
      rfl
  | cons c rest ih =>
      intro k hb hwf
      have hb2 : ∀ j < rest.length, (k + 1) + j < 65536 := by
        intro j hj
        have := hb (j + 1) (by simp; omega)
        omega
      rw [plain_fragments, List.map_cons]
      congr 1
      · unfold decode_chunk
        rw [drop8_header]
        unfold packed_block
        by_cases he : 0 < ecc_symbols level
        · rw [if_pos he, if_pos he,
            dna_to_binary_binary_to_dna _
              (rs_encode_wf _ c (hwf c (List.mem_cons_self c rest)))]
          exact rs_decode_encode _ c
        · rw [if_neg he, if_neg he]
          exact dna_to_binary_binary_to_dna c (hwf c (List.mem_cons_self c rest))
      · exact ih (k + 1) hb2 (fun x hx => hwf x (List.mem_cons_of_mem c hx))

lemma packed_block_length (level : EccLevel) (c : List Nat) :
    (packed_block level c).length = 4 * (c.length + ecc_symbols level) := by
  unfold packed_block
  by_cases he : 0 < ecc_symbols level
  · rw [if_pos he, binary_to_dna_length]
    unfold rs_encode
    rw [List.length_append, rs_parity_length]
  · rw [if_neg he, binary_to_dna_length]
    omega

lemma encode_chunks_lengths (rng : Rng) (level : EccLevel) :
    ∀ chunks k seqs, encode_chunks rng level chunks k = Except.ok seqs →
      seqs.map List.length
        = chunks.map (fun c => 8 + 4 * (c.length + ecc_symbols level)) := by
  intro chunks
  induction chunks with
  | nil =>
      intro k seqs h
      rw [encode_chunks] at h
      cases h
      rfl
  | cons c rest ih =>
      intro k seqs henc
      rw [encode_chunks] at henc
      by_cases hk : k < 65536
      · rw [add_fragment_id_some _ _ hk] at henc
        cases hrest : encode_chunks rng level rest (k + 1) with
        | error e =>
            rw [hrest] at henc
            exact absurd henc (by simp [Except.map])
        | ok tail =>
            rw [hrest] at henc
            simp only [Except.map, Except.ok.injEq] at henc
            rw [← henc, List.map_cons, List.map_cons, ih (k + 1) tail hrest]
            congr 1
            rw [List.length_append, fragment_header_length,
              avoid_homopolymers_length, optimize_gc_content_length,
              packed_block_length]
      · rw [add_fragment_id_none _ _ (by omega)] at henc
        exact absurd henc (by simp)

lemma encode_chunks_members (rng : Rng) (level : EccLevel) :
    ∀ chunks k seqs, encode_chunks rng level chunks k = Except.ok seqs →
      ∀ s ∈ seqs, ∃ k2 x, s = fragment_header k2 ++ avoid_homopolymers (rng.hom k2) x := by
  intro chunks
  induction chunks with
  | nil =>
      intro k seqs h s hs
      rw [encode_chunks] at h
      cases h
      exact absurd hs (by simp)
  | cons c rest ih =>
      intro k seqs henc s hs
      rw [encode_chunks] at henc
      by_cases hk : k < 65536
      · rw [add_fragment_id_some _ _ hk] at henc
        cases hrest : encode_chunks rng level rest (k + 1) with
        | error e =>
            rw [hrest] at henc
            exact absurd henc (by simp [Except.map])
        | ok tail =>
            rw [hrest] at henc
            simp only [Except.map, Except.ok.injEq] at henc
            rw [← henc] at hs
            rcases List.mem_cons.mp hs with h | h
            · exact ⟨k, optimize_gc_content (rng.gc k) (packed_block level c), h⟩
            · exact ih (k + 1) tail hrest s h
      · rw [add_fragment_id_none _ _ (by omega)] at henc
        exact absurd henc (by simp)

/-! The claim theorems. -/

/-- Claim C7: for every byte string, unpacking the symbol sequence produced
by packing it returns exactly the byte string; pack maps each byte to
exactly 4 symbols, most-significant bit-pair first; and unpack truncates
any trailing group of fewer than 4 symbols (a dropped partial byte). -/
theorem pack_unpack_inverse :
    (∀ data : List Nat, (∀ b ∈ data, b < 256) →
        dna_to_binary (binary_to_dna data) = data)
    ∧ (∀ data : List Nat, (binary_to_dna data).length = 4 * data.length)
    ∧ (∀ s : List Char,
        dna_to_binary s = dna_to_binary (s.take (4 * (s.length / 4)))) :=
  ⟨dna_to_binary_binary_to_dna, binary_to_dna_length, dna_to_binary_truncates⟩

/-- Witness for C7 at the concrete byte string `[180, 3]`. -/
theorem pack_unpack_inverse_witness :
    dna_to_binary (binary_to_dna [180, 3]) = [180, 3] :=
  pack_unpack_inverse.1 [180, 3] (by decide)

/-- Claim C5: for every input symbol sequence and every outcome of the
random replacement choices, the run-length-limiting pass produces a
sequence with no run of 4 or more identical adjacent symbols; consequently
the payload segment (everything after the 8-symbol header) of every
sequence a successful encode produces has no such run. -/
theorem no_homopolymer_run :
    (∀ (oracle : Nat → Nat) (l : List Char), NoRun4 (avoid_homopolymers oracle l))
    ∧ ∀ (rng : Rng) (L : Nat) (level : EccLevel) (data : List Nat)
        (pw : Option (List Nat)) (seqs : List (List Char)),
        encode rng L level data pw = Except.ok seqs →
        ∀ s ∈ seqs, NoRun4 (s.drop 8) := by
  constructor
  · exact avoid_homopolymers_no_run
  · intro rng L level data pw seqs henc s hs
    by_cases h0 : bytes_per_sequence L = 0
    · rw [encode_eq_error rng L level data pw h0] at henc
      exact absurd henc (by simp)
    · by_cases hneg : bytes_per_sequence L < 0
      · rw [encode_eq_empty rng L level data pw hneg] at henc
        cases henc
        exact absurd hs (by simp)
      · have hpos : 0 < bytes_per_sequence L := by omega
        rw [encode_eq_chunks rng L level data pw hpos] at henc
        obtain ⟨k2, x, hx⟩ := encode_chunks_members rng level _ 0 seqs henc s hs
        rw [hx, drop8_header]
        exact avoid_homopolymers_no_run _ x

/-- Witness for C5: the pass output on a 5-symbol homopolymer, and the
payload segment of the sequence encoding the single zero byte at base
length 12. -/
theorem no_homopolymer_run_witness :
    NoRun4 (avoid_homopolymers (fun _ => 0) ['A', 'A', 'A', 'A', 'A'])
    ∧ NoRun4 (List.drop 8
        ['A', 'A', 'A', 'A', 'A', 'A', 'A', 'A', 'G', 'G', 'A', 'A']) :=
  ⟨no_homopolymer_run.1 (fun _ => 0) ['A', 'A', 'A', 'A', 'A'],
   no_homopolymer_run.2 rng0 12 EccLevel.none [0] Option.none
     [['A', 'A', 'A', 'A', 'A', 'A', 'A', 'A', 'G', 'G', 'A', 'A']] rfl
     ['A', 'A', 'A', 'A', 'A', 'A', 'A', 'A', 'G', 'G', 'A', 'A'] (by simp)⟩

/-- Claim C6: for every nonempty symbol sequence and every outcome of the
random choices, if the G/C fraction already lies within 10 percentage
points of 50% the composition-balancing pass returns the sequence
unchanged; and the pass output either lies within that tolerance or the
greedy scan exhausted the sequence without reaching tolerance (the
returned flag of `optimize_gc_content_full` is `false` exactly when the
scan ran off the end instead of breaking). -/
theorem gc_content_tolerance (oracle : Nat → Bool) (l : List Char)
    (hl : 0 < l.length) :
    (gc_in_tolerance l = true → optimize_gc_content oracle l = l)
    ∧ (gc_in_tolerance (optimize_gc_content oracle l) = true
        ∨ (optimize_gc_content_full oracle l).2 = false) := by
  constructor
  · exact optimize_gc_content_id oracle l
  · by_cases h : (optimize_gc_content_full oracle l).2 = true
    · exact Or.inl (optimize_gc_content_full_true oracle l h)
    · exact Or.inr (by simpa using h)

/-- Witness for C6 at the concrete sequence `['A', 'G']`. -/
theorem gc_content_tolerance_witness :
    (gc_in_tolerance ['A', 'G'] = true →
        optimize_gc_content (fun _ => true) ['A', 'G'] = ['A', 'G'])
    ∧ (gc_in_tolerance (optimize_gc_content (fun _ => true) ['A', 'G']) = true
        ∨ (optimize_gc_content_full (fun _ => true) ['A', 'G']).2 = false) :=
  gc_content_tolerance (fun _ => true) ['A', 'G'] (by decide)

/-- Claim C1: for every payload of bytes, every error-correction level,
every base length of at least the minimal viable size 12 and no password,
decoding the encoded sequences returns exactly the payload whenever every
packed block already satisfies the GC-composition tolerance and the
run-length limit, so that the constraint rewriter introduces zero
substitutions. -/
theorem round_trip_zero_substitutions (rng : Rng) (L : Nat) (level : EccLevel)
    (P : List Nat) (seqs : List (List Char))
    (hwf : ∀ b ∈ P, b < 256) (hL : 12 ≤ L)
    (hcon : ∀ s ∈ packed_blocks L level P, gc_in_tolerance s = true ∧ NoRun4 s)
    (henc : encode rng L level P Option.none = Except.ok seqs) :
    decode level seqs Option.none = P := by
  have hbps := bytes_per_sequence_pos L hL
  rw [encode_eq_chunks rng L level P Option.none hbps] at henc
  have henv : enveloped rng P Option.none = P := rfl
  rw [henv] at henc
  have hcon2 : ∀ c ∈ chunk_list ((bytes_per_sequence L).toNat - 1) P,
      gc_in_tolerance (packed_block level c) = true
        ∧ NoRun4 (packed_block level c) := by
    intro c hc
    apply hcon
    unfold packed_blocks
    rw [if_pos hbps]
    exact List.mem_map_of_mem _ hc
  obtain ⟨hseqs, hb⟩ := encode_chunks_plain rng level _ 0 seqs hcon2 henc
  subst hseqs
  unfold decode
  dsimp only
  rw [List.Sorted.insertionSort_eq
    (plain_fragments_sorted level _ 0 (by simpa using hb))]
  rw [plain_fragments_decode level _ 0 (by simpa using hb)
    (fun c hc b hbm => hwf b (chunk_list_mem _ P c hc b hbm))]
  exact chunk_list_flatten _ P

/-- Witness for C1: the byte `27` packs to `ATCG`, which already satisfies
both constraints, and round-trips at base length 12 with no error
correction. -/
theorem round_trip_zero_substitutions_witness :
    decode EccLevel.none
      [['A', 'A', 'A', 'A', 'A', 'A', 'A', 'A', 'A', 'T', 'C', 'G']]
      Option.none = [27] :=
  round_trip_zero_substitutions rng0 12 EccLevel.none [27]
    [['A', 'A', 'A', 'A', 'A', 'A', 'A', 'A', 'A', 'T', 'C', 'G']]
    (by decide) (by decide) (by decide) rfl

/-- Claim C3 (amended): every sequence a successful encode returns has
length `8 + 4 * (chunk bytes + parity bytes)` — the 8-symbol header plus 4
symbols per parity-included byte.  This equals the configured base length
only when error correction is off, `base_length - 8` is divisible by 4 and
the chunk is full; with parity enabled the sequences exceed the base
length, the mismatch recorded in the spec's design notes. -/
theorem sequence_length_formula (rng : Rng) (L : Nat) (level : EccLevel)
    (data : List Nat) (pw : Option (List Nat)) (seqs : List (List Char))
    (henc : encode rng L level data pw = Except.ok seqs) :
    seqs.map List.length
      = (encode_chunk_inputs rng L data pw).map
          (fun c => 8 + 4 * (c.length + ecc_symbols level)) := by
  by_cases h0 : bytes_per_sequence L = 0
  · rw [encode_eq_error rng L level data pw h0] at henc
    exact absurd henc (by simp)
  · by_cases hneg : bytes_per_sequence L < 0
    · rw [encode_eq_empty rng L level data pw hneg] at henc
      cases henc
      unfold encode_chunk_inputs
      rw [if_neg (by omega)]
      rfl
    · have hpos : 0 < bytes_per_sequence L := by omega
      rw [encode_eq_chunks rng L level data pw hpos] at henc
      unfold encode_chunk_inputs
      rw [if_pos hpos]
      exact encode_chunks_lengths rng level _ 0 seqs henc

/-- Witness for C3's amended length formula at base length 40, basic error
correction, 8 zero payload bytes. -/
theorem sequence_length_formula_witness :
    ((encode rng0 40 EccLevel.basic (List.replicate 8 0)
        Option.none).toOption.getD []).map List.length
      = (encode_chunk_inputs rng0 40 (List.replicate 8 0) Option.none).map
          (fun c => 8 + 4 * (c.length + ecc_symbols EccLevel.basic)) :=
  sequence_length_formula rng0 40 EccLevel.basic (List.replicate 8 0)
    Option.none _ rfl

/-- Counterexample to claim C3 as stated: at base length 40 with basic
error correction, a full 8-byte chunk yields one sequence of length 72,
not 40. -/
theorem sequence_length_cx :
    encode_lengths (encode rng0 40 EccLevel.basic (List.replicate 8 0)
        Option.none) = some [72]
    ∧ (72 : Nat) ≠ 40 :=
  ⟨by decide, by decide⟩

/-- Claim C2 (code bug): decode with a wrong password does not fail — the
source discards the GCM authentication tag at seal time and decrypts
without verification at open time, so it silently returns garbage.  The
input below is a genuine sealed payload (the same call with the right
password recovers `[1, 2, 3]`); with password `[98]` instead of `[97]`
decode returns `[192, 193, 194]` without any error. -/
theorem wrong_password_decode_succeeds :
    decode EccLevel.none
        [fragment_header 0 ++ binary_to_dna (enveloped rng0 [1, 2, 3] (some [97]))]
        (some [98]) = [192, 193, 194]
    ∧ [192, 193, 194] ≠ [1, 2, 3]
    ∧ decode EccLevel.none
        [fragment_header 0 ++ binary_to_dna (enveloped rng0 [1, 2, 3] (some [97]))]
        (some [97]) = [1, 2, 3] :=
  ⟨by decide, by decide, by decide⟩

/-- Claim C4 (code bug): two fragments carrying the same ordinal 0 are
silently sorted, stripped and concatenated into `[27, 255]`; decode raises
no `DuplicateOrdinal` error (its only failure paths are uncorrectable ECC
blocks, never duplicate ordinals). -/
theorem duplicate_ordinal_silent_concat :
    decode EccLevel.none
        [fragment_header 0 ++ binary_to_dna [27],
         fragment_header 0 ++ binary_to_dna [255]]
        Option.none = [27, 255]
    ∧ extract_fragment_id (fragment_header 0 ++ binary_to_dna [27])
        = extract_fragment_id (fragment_header 0 ++ binary_to_dna [255]) :=
  ⟨by decide, by decide⟩

/-- Claim C8 (amended): encoding 32 zero bytes at base length 40 with no
error correction and no password returns exactly 4 sequences (the chunk
size is 8 bytes, not 32), each of length 40, and each packed block is 32
`A` symbols before constraint rewriting. -/
theorem thirty_two_zero_bytes (rng : Rng) (seqs : List (List Char))
    (henc : encode rng 40 EccLevel.none (List.replicate 32 0) Option.none
      = Except.ok seqs) :
    seqs.length = 4 ∧ (∀ s ∈ seqs, s.length = 40)
      ∧ packed_blocks 40 EccLevel.none (List.replicate 32 0)
          = List.replicate 4 (List.replicate 32 'A') := by
  have hpos : 0 < bytes_per_sequence 40 := by decide
  rw [encode_eq_chunks rng 40 EccLevel.none _ Option.none hpos] at henc
  have hlen := encode_chunks_lengths rng EccLevel.none _ 0 seqs henc
  have hrhs : ((chunk_list ((bytes_per_sequence 40).toNat - 1)
      (enveloped rng (List.replicate 32 0) Option.none)).map
        (fun c => 8 + 4 * (c.length + ecc_symbols EccLevel.none)))
      = [40, 40, 40, 40] := rfl
  rw [hrhs] at hlen
  refine ⟨?_, ?_, by decide⟩
  · have h := congrArg List.length hlen
    simpa using h
  · intro s hs
    have h : s.length ∈ [40, 40, 40, 40] := hlen ▸ List.mem_map_of_mem _ hs
    simpa using h

/-- Witness for C8's amended claim at the concrete randomness `rng0`. -/
theorem thirty_two_zero_bytes_witness :
    ((encode rng0 40 EccLevel.none (List.replicate 32 0)
        Option.none).toOption.getD []).length = 4 :=
  (thirty_two_zero_bytes rng0 _ rfl).1

/-- Counterexample to claim C8 as stated: the call returns 4 sequences,
not 1. -/
theorem thirty_two_zero_bytes_cx :
    sequences_count (encode rng0 40 EccLevel.none (List.replicate 32 0)
        Option.none) = some 4
    ∧ (4 : Nat) ≠ 1 :=
  ⟨by decide, by decide⟩

/-- Claim C9 (amended): for every fragment index at or above 65536,
attaching the fragment header raises `OverflowError`
(`int.to_bytes(2, 'big')` refuses values outside 16 bits) instead of
wrapping modulo `2^16`; below 65536 the 8-symbol header for the exact
ordinal is prepended. -/
theorem fragment_id_overflow (s : List Char) (n : Nat) :
    (65536 ≤ n → add_fragment_id s n = Option.none)
    ∧ (n < 65536 → add_fragment_id s n = some (fragment_header n ++ s)) :=
  ⟨add_fragment_id_none s n, add_fragment_id_some s n⟩

/-- Witness for C9 at the concrete indices 65536 and 65535. -/
theorem fragment_id_overflow_witness :
    add_fragment_id [] 65536 = Option.none
    ∧ add_fragment_id [] 65535 = some (fragment_header 65535 ++ ([] : List Char)) :=
  ⟨(fragment_id_overflow [] 65536).1 (by decide),
   (fragment_id_overflow [] 65535).2 (by decide)⟩

/-- Counterexample to claim C9 as stated: at index 65536 the attach
operation does not produce the header for `65536 % 2^16 = 0`; it fails. -/
theorem fragment_id_overflow_cx :
    add_fragment_id [] 65536 = Option.none
    ∧ add_fragment_id [] 65536 ≠ some (fragment_header 0 ++ ([] : List Char)) :=
  ⟨by decide, by decide⟩

/-- Claim C10: for every payload (empty included), every level, and any
password, encode with base length between 8 and 11 raises (the computed
chunk step is zero, and `range` with step 0 is a `ValueError`); with base
length at most 7 it returns the empty sequence list (negative step, empty
chunk loop), silently discarding the payload; and base length 12 is the
smallest that produces any sequence. -/
theorem minimal_base_length :
    (∀ (rng : Rng) (level : EccLevel) (data : List Nat) (pw : Option (List Nat))
        (L : Nat), 8 ≤ L → L ≤ 11 →
        encode rng L level data pw = Except.error EncodeError.rangeStepZero)
    ∧ (∀ (rng : Rng) (level : EccLevel) (data : List Nat) (pw : Option (List Nat))
        (L : Nat), L ≤ 7 → encode rng L level data pw = Except.ok [])
    ∧ ∃ seqs, encode rng0 12 EccLevel.none [0] Option.none = Except.ok seqs
        ∧ seqs ≠ [] := by
  refine ⟨?_, ?_, ?_⟩
  · intro rng level data pw L h1 h2
    exact encode_eq_error rng L level data pw (bytes_per_sequence_zero L h1 h2)
  · intro rng level data pw L h
    exact encode_eq_empty rng L level data pw (bytes_per_sequence_neg L h)
  · exact ⟨[['A', 'A', 'A', 'A', 'A', 'A', 'A', 'A', 'G', 'G', 'A', 'A']],
      rfl, by decide⟩

/-- Witness for C10 at base lengths 9 (raises) and 5 (empty result). -/
theorem minimal_base_length_witness :
    encode rng0 9 EccLevel.none [3] Option.none
        = Except.error EncodeError.rangeStepZero
    ∧ encode rng0 5 EccLevel.none [3] Option.none = Except.ok [] :=
  ⟨minimal_base_length.1 rng0 EccLevel.none [3] Option.none 9
      (by decide) (by decide),
   minimal_base_length.2.1 rng0 EccLevel.none [3] Option.none 5 (by decide)⟩

end DNAEncoder
